import Mathlib

/-!
Verification of the web discovery/ingestion crawler of `apm-discovery-agent`
(`scripts/create_knowledge_base.py` and `scripts/create_core_knowledge_base.py`).

The Python functions are embedded shallowly:

* the network, the XML sitemap parse, the translation client and the PDF
  reader are external collaborators, modelled by an `Env` record of oracles
  (`requests.get` for a page is `Env.fetch`, returning `none` exactly when the
  Python call raises `requests.RequestException` — network error or a non-2xx
  status via `raise_for_status`);
* `urllib.parse.urlparse(u).netloc` is modelled concretely by `netloc?`,
  following CPython `urlsplit`: optional `scheme:` prefix removal, authority
  present only after `//`, authority delimited by `/`, `?`, `#`, and a
  `ValueError` (modelled as `none`) when the authority has a `[` without `]`
  or vice versa ("Invalid IPv6 URL");
* Python exceptions that propagate out of `crawl_and_scrape` are modelled by
  `Except PyError`; the loop is given explicit fuel, and every real
  terminating run is the run at every sufficiently large fuel;
* `crawlRun` additionally records, in order, every URL passed to
  `requests.get` for page content (`trace`) and for link harvesting
  (`linkTrace`), so that "is fetched" is observable.
-/

namespace Crawler

/-- Errors a run of the Python code can raise: `urls[0]` on an empty list
(`IndexError`), and `urlparse` on a bracket-mismatched authority
(`ValueError`). -/
inductive PyError where
  | indexError
  | valueError
  deriving DecidableEq

/-- Characters CPython `urlsplit` allows in a scheme. -/
def schemeChar (c : Char) : Bool :=
  c.isAlpha || c.isDigit || c == '+' || c == '-' || c == '.'

/-- Remove a leading `scheme:` if present, as CPython `urlsplit` does:
the text before the first `:` must be nonempty, start with an ASCII letter
and consist of scheme characters. -/
def splitScheme (cs : List Char) : List Char :=
  match cs.findIdx? (fun c => c == ':') with
  | some i =>
      if i != 0 && (cs.headD ' ').isAlpha && (cs.take i).all schemeChar then
        cs.drop (i + 1)
      else cs
  | none => cs

/-- The authority runs up to the first `/`, `?` or `#` (CPython
`_splitnetloc`). -/
def takeNetloc (cs : List Char) : List Char :=
  cs.takeWhile (fun c => !(c == '/' || c == '?' || c == '#'))

/-- Model of `urlparse(url).netloc`. `none` models the `ValueError("Invalid IPv6 URL")`
CPython raises when the authority contains exactly one of `[`, `]`;
a URL with no `//` authority gets netloc `""` without error. -/
def netloc? (url : String) : Option String :=
  match splitScheme url.toList with
  | '/' :: '/' :: rest =>
      let nl := takeNetloc rest
      if nl.contains '[' != nl.contains ']' then none
      else some (String.mk nl)
  | _ => some ""

/-- Test of `pat in s` for Python strings: `pat` occurs as a contiguous substring. -/
def listBeginsWith : List Char → List Char → Bool
  | [], _ => true
  | _ :: _, [] => false
  | p :: ps, c :: cs => p == c && listBeginsWith ps cs

/-- Substring occurrence over character lists. -/
def listOccurs (pat : List Char) : List Char → Bool
  | [] => listBeginsWith pat []
  | c :: cs => listBeginsWith pat (c :: cs) || listOccurs pat cs

/-- Python's `pattern in current_url` substring test. -/
def strContains (s pat : String) : Bool :=
  listOccurs pat.toList s.toList

/-- The `IGNORE_PATTERNS` list of `create_knowledge_base.py`. -/
def IGNORE_PATTERNS : List String :=
  ["/login", "/signup", "/edit", "cdn-cgi", "?", "#", ".pdf", ".zip", ".jpg", ".png"]

/-- A successfully fetched page: its visible text (`soup.get_text()`) and its
outbound links, each already resolved to an absolute URL
(`urljoin(current_url, link["href"])` for the `<a href>` anchors found by
BeautifulSoup; the resolver is part of the environment, and every theorem
below holds for arbitrary resolved link strings). -/
structure Page where
  text : String
  links : List String
  deriving DecidableEq

/-- Outcome of `requests.get(<base>/sitemap.xml)` followed by
`ET.fromstring`: the request raised, the XML parse raised, or a parsed
document whose `ns:url/ns:loc` texts are `locs`. -/
inductive SitemapResult where
  | fetchError
  | parseError
  | doc (locs : List String)
  deriving DecidableEq

/-- The output unit: `Document(text=page_text, extra_info={"url": url})`. -/
structure Document where
  text : String
  url : String
  deriving DecidableEq

/-- The external collaborators of one run: the page fetcher, the sitemap
fetch+parse outcome per base URL, the translation client's initialization
outcome, the per-call translation outcome (`none` = the call raised), and
the PDF reader's output. -/
structure Env where
  fetch : String → Option Page
  sitemap : String → SitemapResult
  translateInit : Bool
  translateCall : String → String → Option String
  pdfDocs : List Document

/-- Model of `fetch_sitemap_urls(base_url)`: on request failure or XML parse failure
return `[]`; otherwise collect the `<url><loc>` texts and return them
(the code returns `urls` when nonempty and falls through to `[]` when
empty — the same list either way). -/
def fetch_sitemap_urls (env : Env) (base_url : String) : List String :=
  match env.sitemap base_url with
  | .fetchError => []
  | .parseError => []
  | .doc locs => if locs.isEmpty then [] else locs

/-- Model of `translate_text(text, target_language)`: if the lazily-initialized client
fails to initialize, return the original text; if the translate call raises,
return the original text; otherwise return the translation. -/
def translate_text (env : Env) (text : String) (target_language : String) : String :=
  if env.translateInit then
    match env.translateCall text target_language with
    | some t => t
    | none => text
  else text

/-- Model of `process_url(url, translate_to)`: fetch the page (`None` on
`requests.RequestException`), extract its text, translate when
`translate_to` is truthy (Python: a non-`None`, nonempty string), and build
the `Document`. -/
def process_url (env : Env) (url : String) (translate_to : Option String) :
    Option Document :=
  match env.fetch url with
  | none => none
  | some page =>
      let page_text := page.text
      let page_text :=
        match translate_to with
        | some lang => if lang.isEmpty then page_text else translate_text env page_text lang
        | none => page_text
      some { text := page_text, url := url }

/-- The mutable state of one `crawl_and_scrape` run, plus the two fetch
traces and the pending-exception flag used to model an abort. -/
structure CrawlState where
  visited : List String
  documents : List Document
  queue : List String
  trace : List String
  linkTrace : List String
  error : Option PyError
  deriving DecidableEq

/-- Initial state: `visited = set(); documents = []; queue = list(urls)`. -/
def initState (urls : List String) : CrawlState :=
  { visited := [], documents := [], queue := urls, trace := [], linkTrace := [],
    error := none }

/-- The recursive block (lines 155–165): `requests.get(current_url)` again;
on success enqueue every harvested absolute link not yet visited; on
`RequestException` harvest nothing. Either way the request was issued, so
`current` is appended to `linkTrace`. -/
def harvest (env : Env) (s : CrawlState) (current : String) : CrawlState :=
  match env.fetch current with
  | some page =>
      { s with linkTrace := s.linkTrace ++ [current],
               queue := s.queue ++ page.links.filter (fun l => decide (l ∉ s.visited)) }
  | none => { s with linkTrace := s.linkTrace ++ [current] }

/-- Lines 150–165: `visited.add(current_url)`, `process_url` (one content
fetch, recorded in `trace`), append the document if one was produced, then
harvest links if `recursive`. -/
def processCurrent (env : Env) (recursive : Bool) (translate_to : Option String)
    (s : CrawlState) (current : String) (rest : List String) : CrawlState :=
  let s1 : CrawlState :=
    { s with queue := rest, visited := s.visited ++ [current],
             trace := s.trace ++ [current] }
  let s2 : CrawlState :=
    match process_url env current translate_to with
    | some doc => { s1 with documents := s1.documents ++ [doc] }
    | none => s1
  if recursive then harvest env s2 current else s2

/-- One iteration of the `while queue:` loop (lines 142–165): pop the front,
skip if visited or matching an ignore pattern, then the netloc test —
`urlparse` may raise (`error` is set and the run aborts), a host other than
`base_domain` is skipped, and an in-scope URL is processed. -/
def crawlStep (env : Env) (recursive : Bool) (translate_to : Option String)
    (base_domain : String) (s : CrawlState) : CrawlState :=
  match s.queue with
  | [] => s
  | current :: rest =>
      if current ∈ s.visited ∨ (IGNORE_PATTERNS.any fun p => strContains current p) = true then
        { s with queue := rest }
      else
        match netloc? current with
        | none => { s with queue := rest, error := some PyError.valueError }
        | some nl =>
            if nl = base_domain then
              processCurrent env recursive translate_to s current rest
            else
              { s with queue := rest }

/-- The `while queue:` loop with explicit fuel; a pending exception stops it. -/
def crawlLoop (env : Env) (recursive : Bool) (translate_to : Option String)
    (base_domain : String) : Nat → CrawlState → CrawlState
  | 0, s => s
  | fuel + 1, s =>
      if s.error.isSome then s
      else
        match s.queue with
        | [] => s
        | _ :: _ =>
            crawlLoop env recursive translate_to base_domain fuel
              (crawlStep env recursive translate_to base_domain s)

/-- Model of `crawl_and_scrape` at state level: `urls[0]` raises `IndexError` on an
empty list; `urlparse(urls[0]).netloc` gives the base domain (or raises);
then the loop runs; a pending exception propagates. -/
def crawlRun (env : Env) (urls : List String) (recursive : Bool)
    (translate_to : Option String) (fuel : Nat) : Except PyError CrawlState :=
  match urls with
  | [] => .error PyError.indexError
  | u0 :: rest =>
      match netloc? u0 with
      | none => .error PyError.valueError
      | some base_domain =>
          match (crawlLoop env recursive translate_to base_domain fuel
              (initState (u0 :: rest))).error with
          | some e => .error e
          | none => .ok (crawlLoop env recursive translate_to base_domain fuel
              (initState (u0 :: rest)))

/-- Model of `crawl_and_scrape(urls, recursive, translate_to)`: the documents of the
run. -/
def crawl_and_scrape (env : Env) (urls : List String) (recursive : Bool)
    (translate_to : Option String) (fuel : Nat) : Except PyError (List Document) :=
  (crawlRun env urls recursive translate_to fuel).map (fun s => s.documents)

/-- The argparse namespace of `create_knowledge_base.py` (the fields the
loader reads). -/
structure Args where
  urls : List String
  pdfs : List String
  recursive : Bool
  translate_to : Option String

/-- Model of `load_documents_from_sources(args)`: when `args.urls` is truthy, fetch
the sitemap of `args.urls[0]`, crawl `sitemap_urls or args.urls` with
`args.recursive` and `args.translate_to`; then extend with the PDF reader's
documents when `args.pdfs` is truthy. Exceptions propagate. -/
def load_documents_from_sources (env : Env) (args : Args) (fuel : Nat) :
    Except PyError (List Document) :=
  let webDocs : Except PyError (List Document) :=
    if args.urls.isEmpty then .ok []
    else
      let sitemap_urls := fetch_sitemap_urls env (args.urls.headD "")
      let scrape_urls := if sitemap_urls.isEmpty then args.urls else sitemap_urls
      crawl_and_scrape env scrape_urls args.recursive args.translate_to fuel
  match webDocs with
  | .error e => .error e
  | .ok docs => .ok (docs ++ (if args.pdfs.isEmpty then [] else env.pdfDocs))

/-- The web branch of `load_documents_from_sources` at state level (`none`
when `args.urls` is falsy and the branch is not taken). -/
def load_documents_web_run (env : Env) (args : Args) (fuel : Nat) :
    Option (Except PyError CrawlState) :=
  if args.urls.isEmpty then none
  else
    let sitemap_urls := fetch_sitemap_urls env (args.urls.headD "")
    let scrape_urls := if sitemap_urls.isEmpty then args.urls else sitemap_urls
    some (crawlRun env scrape_urls args.recursive args.translate_to fuel)

/-- Model of `load_api_reference_documents(url)` of `create_core_knowledge_base.py`
at state level: crawl `sitemap_urls or [url]` with
`recursive = not sitemap_urls` and no translation. -/
def load_api_reference_run (env : Env) (url : String) (fuel : Nat) :
    Except PyError CrawlState :=
  let sitemap_urls := fetch_sitemap_urls env url
  let scrape_urls := if sitemap_urls.isEmpty then [url] else sitemap_urls
  crawlRun env scrape_urls sitemap_urls.isEmpty none fuel

/-- Model of `load_api_reference_documents(url)`: its `try/except` returns `[]` on
any exception. -/
def load_api_reference_documents (env : Env) (url : String) (fuel : Nat) :
    List Document :=
  match load_api_reference_run env url fuel with
  | .ok s => s.documents
  | .error _ => []

/-- The dequeue-time in-scope test of the spec: no ignore pattern occurs in
the URL, and the URL's netloc parses and equals the base domain. -/
def inScope (base u : String) : Bool :=
  !(IGNORE_PATTERNS.any fun p => strContains u p) &&
    (match netloc? u with
     | some nl => decide (nl = base)
     | none => false)

/-- The URLs a run can reach: the seeds, plus (in recursive mode) the
resolved links of any reachable in-scope URL whose fetch succeeds. -/
inductive Reaches (env : Env) (r : Bool) (base : String) (seeds : List String) :
    String → Prop
  | seed {u : String} : u ∈ seeds → Reaches env r base seeds u
  | link {v u : String} {p : Page} : Reaches env r base seeds v →
      inScope base v = true → r = true → env.fetch v = some p →
      u ∈ p.links → Reaches env r base seeds u

/-! ### Basic lemmas about the embedding -/

/-- A produced `Document` carries the URL it was scraped from. -/
theorem process_url_url {env : Env} {u : String} {t : Option String} {d : Document}
    (h : process_url env u t = some d) : d.url = u := by
  unfold process_url at h
  cases hf : env.fetch u with
  | none => rw [hf] at h; exact absurd h (by simp)
  | some page => rw [hf] at h; simp at h; cases h; rfl

/-- The call `process_url` produces a document exactly when the fetch succeeds. -/
theorem process_url_isSome (env : Env) (u : String) (t : Option String) :
    (process_url env u t).isSome = (env.fetch u).isSome := by
  unfold process_url
  cases hf : env.fetch u <;> simp

/-- Any property preserved by `crawlStep` over live states is preserved by
the loop. -/
theorem crawlLoop_preserve {env : Env} {r : Bool} {t : Option String} {base : String}
    (P : CrawlState → Prop)
    (hstep : ∀ s, s.error = none → s.queue ≠ [] → P s → P (crawlStep env r t base s)) :
    ∀ fuel s, P s → P (crawlLoop env r t base fuel s) := by
  intro fuel
  induction fuel with
  | zero => intro s h; exact h
  | succ n ih =>
      intro s h
      rw [crawlLoop]
      by_cases he : s.error.isSome
      · simp only [he, if_true]; exact h
      · simp only [he, Bool.false_eq_true, if_false]
        cases hq : s.queue with
        | nil => exact h
        | cons c rest =>
            exact ih _ (hstep s (Option.not_isSome_iff_eq_none.mp he)
              (by rw [hq]; exact List.cons_ne_nil c rest) h)

/-- The shape of one iteration on a nonempty queue. -/
theorem crawlStep_cons (env : Env) (r : Bool) (t : Option String) (base : String)
    (s : CrawlState) (current : String) (rest : List String)
    (hq : s.queue = current :: rest) :
    crawlStep env r t base s =
      if current ∈ s.visited ∨ (IGNORE_PATTERNS.any fun p => strContains current p) = true then
        { s with queue := rest }
      else
        match netloc? current with
        | none => { s with queue := rest, error := some PyError.valueError }
        | some nl =>
            if nl = base then processCurrent env r t s current rest
            else { s with queue := rest } := by
  unfold crawlStep
  rw [hq]

/-- Field characterizations of `processCurrent`. -/
theorem processCurrent_visited (env : Env) (r : Bool) (t : Option String)
    (s : CrawlState) (current : String) (rest : List String) :
    (processCurrent env r t s current rest).visited = s.visited ++ [current] := by
  unfold processCurrent harvest
  cases process_url env current t <;> cases r <;> cases env.fetch current <;> simp

theorem processCurrent_trace (env : Env) (r : Bool) (t : Option String)
    (s : CrawlState) (current : String) (rest : List String) :
    (processCurrent env r t s current rest).trace = s.trace ++ [current] := by
  unfold processCurrent harvest
  cases process_url env current t <;> cases r <;> cases env.fetch current <;> simp

theorem processCurrent_error (env : Env) (r : Bool) (t : Option String)
    (s : CrawlState) (current : String) (rest : List String) :
    (processCurrent env r t s current rest).error = s.error := by
  unfold processCurrent harvest
  cases process_url env current t <;> cases r <;> cases env.fetch current <;> simp

theorem processCurrent_documents (env : Env) (r : Bool) (t : Option String)
    (s : CrawlState) (current : String) (rest : List String) :
    (processCurrent env r t s current rest).documents =
      s.documents ++ (process_url env current t).toList := by
  unfold processCurrent harvest
  cases process_url env current t <;> cases r <;> cases env.fetch current <;> simp

theorem processCurrent_linkTrace (env : Env) (r : Bool) (t : Option String)
    (s : CrawlState) (current : String) (rest : List String) :
    (processCurrent env r t s current rest).linkTrace =
      if r then s.linkTrace ++ [current] else s.linkTrace := by
  unfold processCurrent harvest
  cases process_url env current t <;> cases r <;> cases env.fetch current <;> simp

theorem processCurrent_queue (env : Env) (r : Bool) (t : Option String)
    (s : CrawlState) (current : String) (rest : List String) :
    (processCurrent env r t s current rest).queue =
      if r then
        match env.fetch current with
        | some page =>
            rest ++ page.links.filter (fun l => decide (l ∉ s.visited ++ [current]))
        | none => rest
      else rest := by
  unfold processCurrent harvest
  cases process_url env current t <;> cases r <;> cases env.fetch current <;> simp

/-- A successful `crawlRun` is the loop at the base domain of the first seed,
ending without a pending exception. -/
theorem crawlRun_ok {env : Env} {urls : List String} {r : Bool} {t : Option String}
    {fuel : Nat} {final : CrawlState}
    (h : crawlRun env urls r t fuel = Except.ok final) :
    ∃ u0 us base, urls = u0 :: us ∧ netloc? u0 = some base ∧
      final = crawlLoop env r t base fuel (initState (u0 :: us)) ∧ final.error = none := by
  match urls with
  | [] => simp [crawlRun] at h
  | u0 :: us =>
      refine ⟨u0, us, ?_⟩
      simp only [crawlRun] at h
      cases hb : netloc? u0 with
      | none => rw [hb] at h; simp at h
      | some base =>
          rw [hb] at h
          dsimp only at h
          refine ⟨base, rfl, rfl, ?_⟩
          cases hE : (crawlLoop env r t base fuel (initState (u0 :: us))).error with
          | some e => rw [hE] at h; simp at h
          | none =>
              rw [hE] at h
              simp only [Except.ok.injEq] at h
              exact ⟨h.symm, h ▸ hE⟩

/-! ### The run invariant -/

/-- Facts maintained by every iteration of the crawl loop: the visited set is
duplicate-free and consists of URLs that passed both dequeue-time filters;
each fetch trace lists pairwise-distinct URLs that were marked visited; each
document's URL was marked visited, document URLs are pairwise distinct, and
there is exactly one document per visited URL whose fetch succeeds. -/
structure Inv (env : Env) (base : String) (s : CrawlState) : Prop where
  nodupVisited : s.visited.Nodup
  traceSub : ∀ u ∈ s.trace, u ∈ s.visited
  nodupTrace : s.trace.Nodup
  linkSub : ∀ u ∈ s.linkTrace, u ∈ s.visited
  nodupLink : s.linkTrace.Nodup
  visitedScope : ∀ u ∈ s.visited,
    (IGNORE_PATTERNS.any fun p => strContains u p) = false ∧ netloc? u = some base
  docsSub : ∀ d ∈ s.documents, d.url ∈ s.visited
  nodupDocUrls : (s.documents.map Document.url).Nodup
  docCount : s.documents.length =
    (s.visited.filter (fun u => (env.fetch u).isSome)).length

theorem Inv_init (env : Env) (base : String) (urls : List String) :
    Inv env base (initState urls) := by
  constructor <;> simp [initState]

theorem Inv_processCurrent {env : Env} {r : Bool} {t : Option String} {base : String}
    {s : CrawlState} {current : String} {rest : List String}
    (hvis : current ∉ s.visited)
    (hpat : (IGNORE_PATTERNS.any fun p => strContains current p) = false)
    (hnl : netloc? current = some base)
    (h : Inv env base s) :
    Inv env base (processCurrent env r t s current rest) := by
  constructor
  · rw [processCurrent_visited]
    simp [List.nodup_append, h.nodupVisited, List.disjoint_singleton, hvis]
  · rw [processCurrent_trace, processCurrent_visited]
    intro u hu
    rcases List.mem_append.mp hu with hu | hu
    · exact List.mem_append.mpr (Or.inl (h.traceSub u hu))
    · exact List.mem_append.mpr (Or.inr hu)
  · rw [processCurrent_trace]
    have : current ∉ s.trace := fun hc => hvis (h.traceSub current hc)
    simp [List.nodup_append, h.nodupTrace, List.disjoint_singleton, this]
  · rw [processCurrent_linkTrace, processCurrent_visited]
    intro u hu
    cases r with
    | false =>
        rw [if_neg (by decide)] at hu
        exact List.mem_append.mpr (Or.inl (h.linkSub u hu))
    | true =>
        rw [if_pos rfl] at hu
        rcases List.mem_append.mp hu with hu | hu
        · exact List.mem_append.mpr (Or.inl (h.linkSub u hu))
        · exact List.mem_append.mpr (Or.inr hu)
  · rw [processCurrent_linkTrace]
    have hc : current ∉ s.linkTrace := fun hc => hvis (h.linkSub current hc)
    cases r with
    | false => simpa using h.nodupLink
    | true =>
        simp [List.nodup_append, h.nodupLink, List.disjoint_singleton, hc]
  · rw [processCurrent_visited]
    intro u hu
    rcases List.mem_append.mp hu with hu | hu
    · exact h.visitedScope u hu
    · rcases List.mem_singleton.mp hu with rfl
      exact ⟨hpat, hnl⟩
  · rw [processCurrent_documents, processCurrent_visited]
    intro d hd
    rcases List.mem_append.mp hd with hd | hd
    · exact List.mem_append.mpr (Or.inl (h.docsSub d hd))
    · cases hp : process_url env current t with
      | none => rw [hp] at hd; simp at hd
      | some doc =>
          rw [hp] at hd
          simp only [Option.toList_some, List.mem_singleton] at hd
          subst hd
          rw [process_url_url hp]
          exact List.mem_append.mpr (Or.inr (List.mem_singleton.mpr rfl))
  · rw [processCurrent_documents]
    cases hp : process_url env current t with
    | none => simpa using h.nodupDocUrls
    | some doc =>
        have hdu : doc.url = current := process_url_url hp
        have : current ∉ s.documents.map Document.url := by
          intro hc
          rcases List.mem_map.mp hc with ⟨d, hd, hdeq⟩
          exact hvis (hdeq ▸ h.docsSub d hd)
        simp [List.nodup_append, h.nodupDocUrls, List.disjoint_singleton, hdu, this]
  · rw [processCurrent_documents, processCurrent_visited, List.filter_append,
      List.length_append, List.length_append, h.docCount]
    congr 1
    cases hf : env.fetch current with
    | none =>
        have hp : process_url env current t = none := by
          unfold process_url; rw [hf]
        rw [hp]
        simp [List.filter, hf]
    | some page =>
        have hp : (process_url env current t).isSome = true := by
          rw [process_url_isSome, hf]; rfl
        rcases Option.isSome_iff_exists.mp hp with ⟨d, hd⟩
        rw [hd]
        simp [List.filter, hf]

theorem Inv_step {env : Env} {r : Bool} {t : Option String} {base : String}
    (s : CrawlState) (_he : s.error = none) (hq : s.queue ≠ [])
    (h : Inv env base s) : Inv env base (crawlStep env r t base s) := by
  match hql : s.queue with
  | [] => exact absurd hql hq
  | current :: rest =>
      rw [crawlStep_cons env r t base s current rest hql]
      by_cases hv : current ∈ s.visited ∨ (IGNORE_PATTERNS.any fun p => strContains current p) = true
      · rw [if_pos hv]
        exact ⟨h.nodupVisited, h.traceSub, h.nodupTrace, h.linkSub, h.nodupLink,
          h.visitedScope, h.docsSub, h.nodupDocUrls, h.docCount⟩
      · rw [if_neg hv]
        push_neg at hv
        obtain ⟨hvis, hpat⟩ := hv
        cases hnl : netloc? current with
        | none =>
            exact ⟨h.nodupVisited, h.traceSub, h.nodupTrace, h.linkSub, h.nodupLink,
              h.visitedScope, h.docsSub, h.nodupDocUrls, h.docCount⟩
        | some nl =>
            dsimp only
            by_cases hb : nl = base
            · rw [if_pos hb]
              exact Inv_processCurrent hvis (Bool.not_eq_true _ ▸ hpat) (hb ▸ hnl) h
            · rw [if_neg hb]
              exact ⟨h.nodupVisited, h.traceSub, h.nodupTrace, h.linkSub, h.nodupLink,
                h.visitedScope, h.docsSub, h.nodupDocUrls, h.docCount⟩

/-- The invariant holds at the end of every run from the initial state. -/
theorem Inv_crawlLoop (env : Env) (r : Bool) (t : Option String) (base : String)
    (urls : List String) (fuel : Nat) :
    Inv env base (crawlLoop env r t base fuel (initState urls)) :=
  crawlLoop_preserve (Inv env base) (fun s he hq h => Inv_step s he hq h) fuel
    (initState urls) (Inv_init env base urls)

/-! ### Claim theorems -/

/-- C10: `crawl_and_scrape` requires a non-empty URL list: called with an
empty seed list it raises `IndexError` while computing the base domain from
`urls[0]`, instead of returning an empty document list. -/
theorem empty_seeds_index_error (env : Env) (r : Bool) (t : Option String) (fuel : Nat) :
    crawl_and_scrape env [] r t fuel = Except.error PyError.indexError := rfl

/-- C2: in every run of `crawl_and_scrape`, every produced `Document` has the
host (netloc) of the first URL of the input list, and no two `Document`s are
produced for the same URL (the code's normalization of a URL is the URL
string itself). -/
theorem crawl_domain_scope_unique (env : Env) (r : Bool) (t : Option String)
    (fuel : Nat) (u0 : String) (us : List String) (base : String) (final : CrawlState)
    (hbase : netloc? u0 = some base)
    (hrun : crawlRun env (u0 :: us) r t fuel = Except.ok final) :
    (∀ d ∈ final.documents, netloc? d.url = some base) ∧
    (final.documents.map Document.url).Nodup := by
  obtain ⟨u0', us', base', heq, hb', hfin, herr⟩ := crawlRun_ok hrun
  injection heq with h1 h2
  subst h1; subst h2
  have hbb : base' = base := by
    rw [hbase] at hb'; exact (Option.some.inj hb').symm
  rw [hbb] at hfin
  have hInv : Inv env base final := hfin ▸ Inv_crawlLoop env r t base (u0 :: us) fuel
  refine ⟨?_, hInv.nodupDocUrls⟩
  intro d hd
  exact (hInv.visitedScope d.url (hInv.docsSub d hd)).2

/-- Environment of the witness run for C2: one seed page with no links. -/
def envScope : Env :=
  { fetch := fun u => if u = "http://h/" then some ⟨"txt", []⟩ else none
    sitemap := fun _ => .fetchError
    translateInit := false
    translateCall := fun _ _ => none
    pdfDocs := [] }

/-- Final state of the witness run for C2. -/
def finalScope : CrawlState :=
  { visited := ["http://h/"], documents := [⟨"txt", "http://h/"⟩], queue := [],
    trace := ["http://h/"], linkTrace := [], error := none }

theorem crawl_domain_scope_unique_witness :
    (netloc? "http://h/" = some "h" ∧
      crawlRun envScope ["http://h/"] false none 3 = Except.ok finalScope) ∧
    (∀ d ∈ finalScope.documents, netloc? d.url = some "h") ∧
    (finalScope.documents.map Document.url).Nodup :=
  ⟨⟨rfl, rfl⟩,
    crawl_domain_scope_unique envScope false none 3 "http://h/" [] "h" finalScope rfl rfl⟩

/-- C3: in every run, no URL is content-fetched more than once and no URL is
link-harvest-fetched more than once: both fetch traces are duplicate-free. -/
theorem fetch_at_most_once (env : Env) (r : Bool) (t : Option String)
    (base : String) (urls : List String) (fuel : Nat) :
    ((crawlLoop env r t base fuel (initState urls)).trace).Nodup ∧
    ((crawlLoop env r t base fuel (initState urls)).linkTrace).Nodup :=
  ⟨(Inv_crawlLoop env r t base urls fuel).nodupTrace,
    (Inv_crawlLoop env r t base urls fuel).nodupLink⟩

/-- C6: no URL containing a configured ignore substring is ever fetched
during a crawl — every URL in either fetch trace is free of every
`IGNORE_PATTERNS` substring, because the dequeue-time filter runs before any
request for the URL is issued. -/
theorem ignore_patterns_never_fetched (env : Env) (r : Bool) (t : Option String)
    (base : String) (urls : List String) (fuel : Nat) :
    (((crawlLoop env r t base fuel (initState urls)).trace ++
        (crawlLoop env r t base fuel (initState urls)).linkTrace).all
      fun u => IGNORE_PATTERNS.all fun p => !(strContains u p)) = true := by
  have hInv := Inv_crawlLoop env r t base urls fuel
  rw [List.all_eq_true]
  intro u hu
  have hv : u ∈ (crawlLoop env r t base fuel (initState urls)).visited := by
    rcases List.mem_append.mp hu with h | h
    · exact hInv.traceSub u h
    · exact hInv.linkSub u h
  have hpat := (hInv.visitedScope u hv).1
  rw [List.all_eq_true]
  intro p hp
  rw [List.any_eq_false] at hpat
  simpa using hpat p hp

/-! ### Translation failure (C7) -/

/-- Per-call failure: if the client fails to initialize, or the translation
call for this very text raises, `translate_text` returns the original text
unchanged — regardless of what other calls would do. -/
theorem translate_text_fail {env : Env} {text lang : String}
    (hFail : env.translateInit = false ∨ env.translateCall text lang = none) :
    translate_text env text lang = text := by
  unfold translate_text
  rcases hFail with h | h
  · rw [h]; simp
  · cases hI : env.translateInit
    · simp
    · simp [h]

/-- Per-call failure at document level: when the translation call for a
fetched page's extracted text raises (or the client fails to initialize),
the emitted `Document` carries the untranslated extracted text exactly. -/
theorem process_url_page_fail {env : Env} {u : String} {page : Page} {lang : String}
    (hfetch : env.fetch u = some page)
    (hFail : env.translateInit = false ∨ env.translateCall page.text lang = none) :
    process_url env u (some lang) = some { text := page.text, url := u } := by
  unfold process_url
  rw [hfetch]
  dsimp only
  by_cases hl : lang.isEmpty
  · rw [if_pos hl]
  · rw [if_neg hl, translate_text_fail hFail]

/-- The URLs of the documents one `process_url` call contributes do not
depend on `translate_to`. -/
theorem process_url_toList_map_url (env : Env) (u : String) (t : Option String) :
    ((process_url env u t).toList).map Document.url =
      if (env.fetch u).isSome then [u] else [] := by
  cases hf : env.fetch u with
  | none =>
      have hp : process_url env u t = none := by unfold process_url; rw [hf]
      rw [hp]
      simp [hf]
  | some page =>
      have h1 : (process_url env u t).isSome = true := by
        rw [process_url_isSome, hf]; rfl
      rcases Option.isSome_iff_exists.mp h1 with ⟨d, hd⟩
      rw [hd]
      simp [hf, process_url_url hd]

/-- Two crawl states that agree on everything except document texts. The
`translate_to` argument can only influence document texts, so runs at
different `translate_to` stay related — whether translation calls succeed,
fail on some inputs, or fail on all of them. -/
def SameShape (s1 s2 : CrawlState) : Prop :=
  s1.visited = s2.visited ∧
  s1.documents.map Document.url = s2.documents.map Document.url ∧
  s1.queue = s2.queue ∧
  s1.trace = s2.trace ∧
  s1.linkTrace = s2.linkTrace ∧
  s1.error = s2.error

theorem crawlStep_sameShape {env : Env} {r : Bool} {base : String}
    (t1 t2 : Option String) {s1 s2 : CrawlState} (h : SameShape s1 s2) :
    SameShape (crawlStep env r t1 base s1) (crawlStep env r t2 base s2) := by
  obtain ⟨hV, hD, hQ, hT, hL, hE⟩ := h
  cases hq1 : s1.queue with
  | nil =>
      have hq2 : s2.queue = [] := by rw [← hQ]; exact hq1
      unfold crawlStep
      rw [hq1, hq2]
      exact ⟨hV, hD, hQ, hT, hL, hE⟩
  | cons current rest =>
      have hq2 : s2.queue = current :: rest := by rw [← hQ]; exact hq1
      rw [crawlStep_cons env r t1 base s1 current rest hq1,
        crawlStep_cons env r t2 base s2 current rest hq2]
      by_cases hv : current ∈ s2.visited ∨ (IGNORE_PATTERNS.any fun p => strContains current p) = true
      · rw [if_pos (by rw [hV]; exact hv), if_pos hv]
        exact ⟨hV, hD, rfl, hT, hL, hE⟩
      · rw [if_neg (by rw [hV]; exact hv), if_neg hv]
        cases hnl : netloc? current with
        | none => exact ⟨hV, hD, rfl, hT, hL, by rw [hE]⟩
        | some nl =>
            dsimp only
            by_cases hb : nl = base
            · rw [if_pos hb, if_pos hb]
              refine ⟨?_, ?_, ?_, ?_, ?_, ?_⟩
              · rw [processCurrent_visited, processCurrent_visited, hV]
              · rw [processCurrent_documents, processCurrent_documents,
                  List.map_append, List.map_append, hD,
                  process_url_toList_map_url, process_url_toList_map_url]
              · rw [processCurrent_queue, processCurrent_queue, hV]
              · rw [processCurrent_trace, processCurrent_trace, hT]
              · rw [processCurrent_linkTrace, processCurrent_linkTrace, hL]
              · rw [processCurrent_error, processCurrent_error, hE]
            · rw [if_neg hb, if_neg hb]
              exact ⟨hV, hD, rfl, hT, hL, hE⟩

theorem crawlLoop_sameShape {env : Env} {r : Bool} {base : String}
    (t1 t2 : Option String) :
    ∀ fuel s1 s2, SameShape s1 s2 →
      SameShape (crawlLoop env r t1 base fuel s1) (crawlLoop env r t2 base fuel s2) := by
  intro fuel
  induction fuel with
  | zero => intro s1 s2 h; exact h
  | succ n ih =>
      intro s1 s2 h
      obtain ⟨hV, hD, hQ, hT, hL, hE⟩ := h
      rw [crawlLoop, crawlLoop, ← hE]
      by_cases he : s1.error.isSome
      · rw [if_pos he, if_pos he]
        exact ⟨hV, hD, hQ, hT, hL, hE⟩
      · rw [if_neg he, if_neg he]
        cases hq1 : s1.queue with
        | nil =>
            have hq2 : s2.queue = [] := by rw [← hQ]; exact hq1
            rw [hq2]
            exact ⟨hV, hD, hQ, hT, hL, hE⟩
        | cons c rest =>
            have hq2 : s2.queue = c :: rest := by rw [← hQ]; exact hq1
            rw [hq2]
            exact ih _ _ (crawlStep_sameShape t1 t2 ⟨hV, hD, hQ, hT, hL, hE⟩)

/-- The exception behavior of `crawl_and_scrape` does not depend on
`translate_to` at all: the run at one translation setting raises a given
error exactly when the run at any other setting does. -/
theorem crawlRun_error_iff (env : Env) (urls : List String) (r : Bool)
    (t1 t2 : Option String) (fuel : Nat) (e : PyError) :
    crawlRun env urls r t1 fuel = Except.error e ↔
      crawlRun env urls r t2 fuel = Except.error e := by
  cases urls with
  | nil => exact Iff.rfl
  | cons u0 us =>
      simp only [crawlRun]
      cases hb : netloc? u0 with
      | none => exact Iff.rfl
      | some base =>
          dsimp only
          have hS := @crawlLoop_sameShape env r base t1 t2 fuel
            (initState (u0 :: us)) (initState (u0 :: us)) ⟨rfl, rfl, rfl, rfl, rfl, rfl⟩
          have hEE := hS.2.2.2.2.2
          rw [hEE]
          cases hE2 : (crawlLoop env r t2 base fuel (initState (u0 :: us))).error with
          | none => dsimp only; constructor <;> intro hc <;> simp at hc
          | some e2 => exact Iff.rfl

/-- C7: per-call translation failure degrades to the identity: if the client
fails to initialize or the translation call for the given text raises (even
while calls for other texts would succeed), `translate_text` returns the
original input unchanged; when the call for a fetched page's extracted text
fails, the emitted `Document` text equals the untranslated extracted text
exactly; and the crawl raises an exception with translation enabled exactly
when it does with translation disabled — a translation failure never aborts
the crawl. -/
theorem translation_failure_noop (env : Env) (text lang : String) (u : String)
    (page : Page) (urls : List String) (r : Bool) (fuel : Nat) (e : PyError)
    (hfetch : env.fetch u = some page)
    (hcall : env.translateInit = false ∨ env.translateCall text lang = none)
    (hpage : env.translateInit = false ∨ env.translateCall page.text lang = none) :
    translate_text env text lang = text ∧
    process_url env u (some lang) = some { text := page.text, url := u } ∧
    (crawlRun env urls r (some lang) fuel = Except.error e ↔
      crawlRun env urls r none fuel = Except.error e) :=
  ⟨translate_text_fail hcall, process_url_page_fail hfetch hpage,
    crawlRun_error_iff env urls r (some lang) none fuel e⟩

/-- Environment of the witness run for C7: the client initializes, and only
the call for the fetched page's text `"bonjour"` raises — calls for other
texts succeed, exercising the per-call case. -/
def envQuota : Env :=
  { fetch := fun u => if u = "http://h/" then some ⟨"bonjour", []⟩ else none
    sitemap := fun _ => .fetchError
    translateInit := true
    translateCall := fun a _ => if a = "bonjour" then none else some "translated"
    pdfDocs := [] }

theorem translation_failure_noop_witness :
    (envQuota.fetch "http://h/" = some ⟨"bonjour", []⟩ ∧
      envQuota.translateInit = true ∧
      envQuota.translateCall "bonjour" "en" = none ∧
      envQuota.translateCall "other text" "en" = some "translated") ∧
    translate_text envQuota "bonjour" "en" = "bonjour" ∧
    process_url envQuota "http://h/" (some "en") =
      some { text := "bonjour", url := "http://h/" } ∧
    (crawlRun envQuota ["http://h/"] false (some "en") 3 =
        Except.error PyError.valueError ↔
      crawlRun envQuota ["http://h/"] false none 3 =
        Except.error PyError.valueError) :=
  ⟨⟨rfl, rfl, rfl, rfl⟩,
    translation_failure_noop envQuota "bonjour" "en" "http://h/" ⟨"bonjour", []⟩
      ["http://h/"] false 3 PyError.valueError rfl (Or.inr rfl) (Or.inr rfl)⟩


/-! ### Fetch failure (C8) -/

/-- C8: if the fetch of a dequeued in-scope URL fails, `process_url` returns
no document, the step adds no document, raises nothing, and the loop moves
on to the rest of the queue: the crawl continues. -/
theorem fetch_failure_skips (env : Env) (r : Bool) (t : Option String)
    (base : String) (s : CrawlState) (url : String) (rest : List String)
    (hq : s.queue = url :: rest)
    (hvis : url ∉ s.visited)
    (hpat : (IGNORE_PATTERNS.any fun p => strContains url p) = false)
    (hnl : netloc? url = some base)
    (hf : env.fetch url = none) :
    process_url env url t = none ∧
    (crawlStep env r t base s).documents = s.documents ∧
    (crawlStep env r t base s).error = s.error ∧
    (crawlStep env r t base s).queue = rest := by
  have hp : process_url env url t = none := by unfold process_url; rw [hf]
  have hcond : ¬(url ∈ s.visited ∨ (IGNORE_PATTERNS.any fun p => strContains url p) = true) := by
    simp [hvis, hpat]
  rw [crawlStep_cons env r t base s url rest hq, if_neg hcond, hnl]
  dsimp only
  rw [if_pos rfl]
  refine ⟨hp, ?_, ?_, ?_⟩
  · rw [processCurrent_documents, hp]; simp
  · exact processCurrent_error env r t s url rest
  · rw [processCurrent_queue, hf]; cases r <;> simp

/-- Environment of the witness run for C8: every fetch fails. -/
def envDown : Env :=
  { fetch := fun _ => none
    sitemap := fun _ => .fetchError
    translateInit := false
    translateCall := fun _ _ => none
    pdfDocs := [] }

theorem fetch_failure_skips_witness :
    ((initState ["http://h/"]).queue = ["http://h/"] ∧
      "http://h/" ∉ (initState ["http://h/"]).visited ∧
      envDown.fetch "http://h/" = none) ∧
    process_url envDown "http://h/" none = none ∧
    (crawlStep envDown true none "h" (initState ["http://h/"])).documents =
      (initState ["http://h/"]).documents ∧
    (crawlStep envDown true none "h" (initState ["http://h/"])).error =
      (initState ["http://h/"]).error ∧
    (crawlStep envDown true none "h" (initState ["http://h/"])).queue = [] :=
  ⟨⟨rfl, by simp [initState], rfl⟩,
    fetch_failure_skips envDown true none "h" (initState ["http://h/"]) "http://h/" []
      rfl (by simp [initState]) rfl rfl rfl⟩

/-! ### Unparseable URLs at the dequeue-time filter (C5) -/

/-- Environment of the C5 counterexample: the network never answers. -/
def envBracket : Env :=
  { fetch := fun _ => none
    sitemap := fun _ => .fetchError
    translateInit := false
    translateCall := fun _ _ => none
    pdfDocs := [] }

/-- C5 counterexample: `urlparse` on an authority with a `[` and no `]`
raises `ValueError` at the dequeue-time netloc test, and nothing catches it:
the crawl aborts with an error instead of skipping the URL. -/
theorem unparseable_url_cex :
    netloc? "http://a[b" = none ∧
    crawl_and_scrape envBracket ["http://h/", "http://a[b"] false none 5 =
      Except.error PyError.valueError :=
  ⟨rfl, rfl⟩

/-- C5 amended: a candidate URL that `urlparse` parses leniently to an empty
netloc (any string with no `//`-authority — the typical unparseable input)
is treated as out-of-scope at dequeue time and merely skipped, with no
error; but a URL whose authority has mismatched square brackets makes
`urlparse` raise a `ValueError` that aborts the crawl
(`unparseable_url_cex`). -/
theorem unparseable_url_skipped (env : Env) (r : Bool) (t : Option String)
    (base : String) (s : CrawlState) (u : String) (rest : List String)
    (hq : s.queue = u :: rest)
    (hn : netloc? u = some "")
    (hb : base ≠ "") :
    crawlStep env r t base s = { s with queue := rest } := by
  rw [crawlStep_cons env r t base s u rest hq]
  by_cases hv : u ∈ s.visited ∨ (IGNORE_PATTERNS.any fun p => strContains u p) = true
  · rw [if_pos hv]
  · rw [if_neg hv, hn]
    dsimp only
    rw [if_neg (fun hh => hb hh.symm)]

theorem unparseable_url_skipped_witness :
    ((initState ["foo bar"]).queue = "foo bar" :: [] ∧
      netloc? "foo bar" = some "" ∧ "h" ≠ "") ∧
    crawlStep envBracket false none "h" (initState ["foo bar"]) =
      { initState ["foo bar"] with queue := [] } :=
  ⟨⟨rfl, rfl, by decide⟩,
    unparseable_url_skipped envBracket false none "h" (initState ["foo bar"])
      "foo bar" [] rfl rfl (by decide)⟩

/-! ### Non-recursive runs never leave the initial frontier (C1, C9) -/

/-- In a non-recursive run seeded from `L`, the queue and the content-fetch
trace stay inside `L` and no link-harvest fetch ever happens. -/
structure NRInv (L : List String) (s : CrawlState) : Prop where
  queueSub : ∀ u ∈ s.queue, u ∈ L
  traceSub : ∀ u ∈ s.trace, u ∈ L
  linkNil : s.linkTrace = []

theorem NRInv_step {env : Env} {t : Option String} {base : String} {L : List String}
    (s : CrawlState) (hq : s.queue ≠ []) (h : NRInv L s) :
    NRInv L (crawlStep env false t base s) := by
  match hql : s.queue with
  | [] => exact absurd hql hq
  | current :: rest =>
      have hcur : current ∈ L := h.queueSub current (by rw [hql]; exact List.mem_cons_self _ _)
      have hrest : ∀ u ∈ rest, u ∈ L := fun u hu =>
        h.queueSub u (by rw [hql]; exact List.mem_cons_of_mem _ hu)
      rw [crawlStep_cons env false t base s current rest hql]
      by_cases hv : current ∈ s.visited ∨ (IGNORE_PATTERNS.any fun p => strContains current p) = true
      · rw [if_pos hv]; exact ⟨hrest, h.traceSub, h.linkNil⟩
      · rw [if_neg hv]
        cases hnl : netloc? current with
        | none => exact ⟨hrest, h.traceSub, h.linkNil⟩
        | some nl =>
            dsimp only
            by_cases hb : nl = base
            · rw [if_pos hb]
              refine ⟨?_, ?_, ?_⟩
              · rw [processCurrent_queue]
                simpa using hrest
              · rw [processCurrent_trace]
                intro u hu
                rcases List.mem_append.mp hu with hu | hu
                · exact h.traceSub u hu
                · rcases List.mem_singleton.mp hu with rfl; exact hcur
              · rw [processCurrent_linkTrace]
                simpa using h.linkNil
            · rw [if_neg hb]; exact ⟨hrest, h.traceSub, h.linkNil⟩

theorem NRInv_crawlLoop (env : Env) (t : Option String) (base : String)
    (L : List String) (fuel : Nat) :
    NRInv L (crawlLoop env false t base fuel (initState L)) :=
  crawlLoop_preserve (NRInv L) (fun s _ hq h => NRInv_step s hq h) fuel (initState L)
    ⟨fun u hu => hu, by simp [initState], rfl⟩

/-! ### Sitemap precedence (C1) -/

/-- Environment of the C1 counterexample: the sitemap declares exactly one
URL, whose page links to a second same-host URL outside the sitemap list. -/
def envSite : Env :=
  { fetch := fun u =>
      if u = "http://h/s" then some ⟨"t", ["http://h/out"]⟩
      else if u = "http://h/out" then some ⟨"u", []⟩
      else none
    sitemap := fun _ => .doc ["http://h/s"]
    translateInit := false
    translateCall := fun _ _ => none
    pdfDocs := [] }

/-- C1 counterexample: `load_documents_from_sources` passes `args.recursive`
through unchanged, so with `--recursive` set and a non-empty sitemap
(N = 1 > 0 here), links are still harvested (`linkTrace ≠ []`) and the URL
`http://h/out`, which is not in the sitemap list, is fetched and even
yields a `Document`. -/
theorem sitemap_precedence_cex :
    fetch_sitemap_urls envSite "http://h/" = ["http://h/s"] ∧
    ("http://h/out" ∈ (["http://h/s"] : List String)) = False ∧
    load_documents_web_run envSite ⟨["http://h/"], [], true, none⟩ 10 =
      some (Except.ok
        { visited := ["http://h/s", "http://h/out"]
          documents := [⟨"t", "http://h/s"⟩, ⟨"u", "http://h/out"⟩]
          queue := []
          trace := ["http://h/s", "http://h/out"]
          linkTrace := ["http://h/s", "http://h/out"]
          error := none }) ∧
    load_documents_from_sources envSite ⟨["http://h/"], [], true, none⟩ 10 =
      Except.ok [⟨"t", "http://h/s"⟩, ⟨"u", "http://h/out"⟩] :=
  ⟨rfl, by simp, rfl, rfl⟩

/-- C1 amended: when `fetch_sitemap_urls` returns a non-empty list, the list
is used as the crawl frontier, but link-following is only disabled where
the crawl is invoked with `recursive = False`. `load_api_reference_documents`
does exactly that (`recursive=not sitemap_urls`), and then every fetched URL
is in the sitemap list and no outbound link is harvested or enqueued;
`load_documents_from_sources` instead passes `args.recursive` through, so
with `--recursive` set URLs outside the sitemap list may be fetched
(`sitemap_precedence_cex`). -/
theorem sitemap_precedence_amended (env : Env) (url : String) (fuel : Nat)
    (locs : List String) (final : CrawlState)
    (hsm : fetch_sitemap_urls env url = locs) (hne : locs ≠ [])
    (hrun : load_api_reference_run env url fuel = Except.ok final) :
    load_api_reference_run env url fuel = crawlRun env locs false none fuel ∧
    (∀ u ∈ final.trace, u ∈ locs) ∧ final.linkTrace = [] := by
  have hE : locs.isEmpty = false := by
    cases locs with
    | nil => exact absurd rfl hne
    | cons a l => rfl
  have hrw : load_api_reference_run env url fuel = crawlRun env locs false none fuel := by
    unfold load_api_reference_run
    rw [hsm]
    simp only [hE, Bool.false_eq_true, if_false]
  rw [hrw] at hrun
  obtain ⟨u0, us, base, heq, hb, hfin, herr⟩ := crawlRun_ok hrun
  have hNR : NRInv locs final := by
    rw [hfin, ← heq]
    exact NRInv_crawlLoop env none base locs fuel
  exact ⟨hrw, hNR.traceSub, hNR.linkNil⟩

theorem sitemap_precedence_amended_witness :
    (fetch_sitemap_urls envSite "http://h/" = ["http://h/s"] ∧
      (["http://h/s"] : List String) ≠ [] ∧
      load_api_reference_run envSite "http://h/" 10 = Except.ok
        { visited := ["http://h/s"], documents := [⟨"t", "http://h/s"⟩], queue := [],
          trace := ["http://h/s"], linkTrace := [], error := none }) ∧
    load_api_reference_run envSite "http://h/" 10 =
      crawlRun envSite ["http://h/s"] false none 10 ∧
    (∀ u ∈ (CrawlState.mk ["http://h/s"] [⟨"t", "http://h/s"⟩] [] ["http://h/s"] [] none).trace,
      u ∈ (["http://h/s"] : List String)) ∧
    (CrawlState.mk ["http://h/s"] [⟨"t", "http://h/s"⟩] [] ["http://h/s"] [] none).linkTrace = [] :=
  ⟨⟨rfl, by simp, rfl⟩,
    sitemap_precedence_amended envSite "http://h/" 10 ["http://h/s"]
      (CrawlState.mk ["http://h/s"] [⟨"t", "http://h/s"⟩] [] ["http://h/s"] [] none)
      rfl (by simp) rfl⟩

/-! ### Sitemap fallback (C9) -/

/-- Environment of the C9 counterexample: the sitemap fetch fails, the seed
page links to a same-host URL. -/
def envFallback : Env :=
  { fetch := fun u =>
      if u = "http://h/" then some ⟨"t", ["http://h/a"]⟩
      else if u = "http://h/a" then some ⟨"u", []⟩
      else none
    sitemap := fun _ => .fetchError
    translateInit := false
    translateCall := fun _ _ => none
    pdfDocs := [] }

/-- C9 counterexample: on sitemap fetch failure the caller
`load_documents_from_sources` does use the original seeds as the frontier,
but link-following follows `args.recursive`: with the flag unset
(`recursive=False`, the argparse default), the in-scope link `http://h/a` on
the seed page is never followed (`linkTrace = []`, no second fetch), so
"link-following enabled" does not hold for this caller. -/
theorem sitemap_fallback_cex :
    fetch_sitemap_urls envFallback "http://h/" = [] ∧
    envFallback.fetch "http://h/" = some ⟨"t", ["http://h/a"]⟩ ∧
    load_documents_web_run envFallback ⟨["http://h/"], [], false, none⟩ 5 =
      some (Except.ok
        { visited := ["http://h/"], documents := [⟨"t", "http://h/"⟩], queue := [],
          trace := ["http://h/"], linkTrace := [], error := none }) :=
  ⟨rfl, rfl, rfl⟩

/-- C9 amended: on sitemap fetch or parse failure `fetch_sitemap_urls`
returns `[]` without raising, and the caller then uses the original seed
URL list as the frontier; link-following is enabled iff the request's
recursive flag is set in `load_documents_from_sources`, and is always
enabled on fallback in `load_api_reference_documents`
(`recursive=not sitemap_urls`). -/
theorem sitemap_fallback_amended (env : Env) (args : Args) (u0 : String)
    (us : List String) (fuel : Nat) (url2 : String) (fuel2 : Nat)
    (hurls : args.urls = u0 :: us)
    (hsm : env.sitemap u0 = SitemapResult.fetchError ∨
      env.sitemap u0 = SitemapResult.parseError)
    (hsm2 : fetch_sitemap_urls env url2 = []) :
    fetch_sitemap_urls env u0 = [] ∧
    load_documents_web_run env args fuel =
      some (crawlRun env args.urls args.recursive args.translate_to fuel) ∧
    load_api_reference_run env url2 fuel2 = crawlRun env [url2] true none fuel2 := by
  have h1 : fetch_sitemap_urls env u0 = [] := by
    unfold fetch_sitemap_urls
    rcases hsm with h | h <;> rw [h]
  refine ⟨h1, ?_, ?_⟩
  · unfold load_documents_web_run
    rw [hurls]
    simp only [List.isEmpty_cons, Bool.false_eq_true, if_false, List.headD_cons, h1,
      List.isEmpty_nil, if_pos]
  · unfold load_api_reference_run
    rw [hsm2]
    simp

theorem sitemap_fallback_amended_witness :
    ((⟨["http://h/"], [], false, none⟩ : Args).urls = "http://h/" :: [] ∧
      envFallback.sitemap "http://h/" = SitemapResult.fetchError ∧
      fetch_sitemap_urls envFallback "http://h/" = []) ∧
    fetch_sitemap_urls envFallback "http://h/" = [] ∧
    load_documents_web_run envFallback ⟨["http://h/"], [], false, none⟩ 5 =
      some (crawlRun envFallback ["http://h/"] false none 5) ∧
    load_api_reference_run envFallback "http://h/" 5 =
      crawlRun envFallback ["http://h/"] true none 5 :=
  ⟨⟨rfl, rfl, rfl⟩,
    sitemap_fallback_amended envFallback ⟨["http://h/"], [], false, none⟩ "http://h/" []
      5 "http://h/" 5 rfl (Or.inl rfl) rfl⟩

/-! ### Termination and completeness (C4) -/

theorem inScope_false_of_pattern {base u : String}
    (h : (IGNORE_PATTERNS.any fun p => strContains u p) = true) :
    inScope base u = false := by
  unfold inScope
  rw [h]
  rfl

theorem inScope_false_of_netloc {base u nl : String} (hnl : netloc? u = some nl)
    (hne : nl ≠ base) : inScope base u = false := by
  unfold inScope
  rw [hnl]
  simp [hne]

theorem inScope_true {base u : String}
    (hpat : (IGNORE_PATTERNS.any fun p => strContains u p) = false)
    (hnl : netloc? u = some base) : inScope base u = true := by
  unfold inScope
  rw [hpat, hnl]
  simp

/-- An upper bound on the queue growth one URL can cause: its dequeue plus
the links its page can contribute. -/
def linkWeight (env : Env) (u : String) : Nat :=
  1 + (match env.fetch u with | some p => p.links.length | none => 0)

/-- Strictly decreasing measure of the loop over a finite URL domain `U`:
pending queue entries plus the weight of the not-yet-visited part of `U`. -/
def potential (env : Env) (U : List String) (s : CrawlState) : Nat :=
  s.queue.length + (U.toFinset.filter fun u => u ∉ s.visited).sum (linkWeight env)

/-- The crawl-reachability invariant over a finite URL domain `U`: no pending
exception, queue and visited stay in `U`, everything seen is reachable,
visited URLs passed the in-scope filter, and every seed and every harvested
link of a visited page is either already visited, still pending, or
out-of-scope. -/
structure ReachInv (env : Env) (r : Bool) (base : String) (seeds U : List String)
    (s : CrawlState) : Prop where
  errNone : s.error = none
  queueU : ∀ u ∈ s.queue, u ∈ U
  visitedU : ∀ u ∈ s.visited, u ∈ U
  queueReach : ∀ u ∈ s.queue, Reaches env r base seeds u
  visitedReach : ∀ u ∈ s.visited, Reaches env r base seeds u ∧ inScope base u = true
  seedsClosed : ∀ u ∈ seeds, u ∈ s.visited ∨ u ∈ s.queue ∨ inScope base u = false
  linksClosed : ∀ v ∈ s.visited, r = true → ∀ p, env.fetch v = some p →
    ∀ l ∈ p.links, l ∈ s.visited ∨ l ∈ s.queue ∨ inScope base l = false

theorem ReachInv_init (env : Env) (r : Bool) (base : String) (seeds U : List String)
    (hseeds : ∀ u ∈ seeds, u ∈ U) :
    ReachInv env r base seeds U (initState seeds) := by
  refine ⟨rfl, hseeds, ?_, ?_, ?_, ?_, ?_⟩
  · intro u hu; simp [initState] at hu
  · intro u hu; exact Reaches.seed hu
  · intro u hu; simp [initState] at hu
  · intro u hu; exact Or.inr (Or.inl hu)
  · intro v hv; simp [initState] at hv

theorem ReachInv_step {env : Env} {r : Bool} {t : Option String} {base : String}
    {seeds U : List String}
    (hlinks : ∀ u p, env.fetch u = some p → ∀ l ∈ p.links, l ∈ U)
    (hparse : ∀ u ∈ U, netloc? u ≠ none)
    (s : CrawlState) (hq : s.queue ≠ []) (h : ReachInv env r base seeds U s) :
    ReachInv env r base seeds U (crawlStep env r t base s) := by
  match hql : s.queue with
  | [] => exact absurd hql hq
  | current :: rest =>
      have hcurU : current ∈ U := h.queueU current (by rw [hql]; exact List.mem_cons_self _ _)
      have hrestU : ∀ u ∈ rest, u ∈ U := fun u hu =>
        h.queueU u (by rw [hql]; exact List.mem_cons_of_mem _ hu)
      have hcurR : Reaches env r base seeds current :=
        h.queueReach current (by rw [hql]; exact List.mem_cons_self _ _)
      have hrestR : ∀ u ∈ rest, Reaches env r base seeds u := fun u hu =>
        h.queueReach u (by rw [hql]; exact List.mem_cons_of_mem _ hu)
      rw [crawlStep_cons env r t base s current rest hql]
      by_cases hv : current ∈ s.visited ∨ (IGNORE_PATTERNS.any fun p => strContains current p) = true
      · rw [if_pos hv]
        have promote : ∀ x, (x ∈ s.visited ∨ x ∈ s.queue ∨ inScope base x = false) →
            (x ∈ s.visited ∨ x ∈ rest ∨ inScope base x = false) := by
          intro x hx
          rcases hx with hx | hx | hx
          · exact Or.inl hx
          · rw [hql] at hx
            rcases List.mem_cons.mp hx with rfl | hx
            · rcases hv with hv | hv
              · exact Or.inl hv
              · exact Or.inr (Or.inr (inScope_false_of_pattern hv))
            · exact Or.inr (Or.inl hx)
          · exact Or.inr (Or.inr hx)
        exact ⟨h.errNone, hrestU, h.visitedU, hrestR, h.visitedReach,
          fun u hu => promote u (h.seedsClosed u hu),
          fun v hvv hr p hp l hl => promote l (h.linksClosed v hvv hr p hp l hl)⟩
      · rw [if_neg hv]
        push_neg at hv
        obtain ⟨hvis, hpat'⟩ := hv
        have hpat : (IGNORE_PATTERNS.any fun p => strContains current p) = false :=
          Bool.not_eq_true _ ▸ hpat'
        cases hnl : netloc? current with
        | none => exact absurd hnl (hparse current hcurU)
        | some nl =>
            dsimp only
            by_cases hb : nl = base
            · rw [if_pos hb]
              subst hb
              have hsc : inScope nl current = true := inScope_true hpat hnl
              have hvism : ∀ x, x ∈ s.visited ++ [current] ↔ x ∈ s.visited ∨ x = current := by
                intro x; simp
              have hqmem : ∀ x ∈ rest, x ∈ (processCurrent env r t s current rest).queue := by
                intro x hx
                rw [processCurrent_queue]
                cases r with
                | false => simpa using hx
                | true =>
                    rw [if_pos rfl]
                    cases hf : env.fetch current with
                    | none => exact hx
                    | some p => exact List.mem_append.mpr (Or.inl hx)
              have promote : ∀ x, (x ∈ s.visited ∨ x ∈ s.queue ∨ inScope nl x = false) →
                  (x ∈ (processCurrent env r t s current rest).visited ∨
                   x ∈ (processCurrent env r t s current rest).queue ∨
                   inScope nl x = false) := by
                intro x hx
                rw [processCurrent_visited]
                rcases hx with hx | hx | hx
                · exact Or.inl (List.mem_append.mpr (Or.inl hx))
                · rw [hql] at hx
                  rcases List.mem_cons.mp hx with rfl | hx
                  · exact Or.inl (List.mem_append.mpr (Or.inr (List.mem_singleton.mpr rfl)))
                  · exact Or.inr (Or.inl (hqmem x hx))
                · exact Or.inr (Or.inr hx)
              refine ⟨?_, ?_, ?_, ?_, ?_, ?_, ?_⟩
              · rw [processCurrent_error]; exact h.errNone
              · rw [processCurrent_queue]
                cases r with
                | false => simpa using hrestU
                | true =>
                    rw [if_pos rfl]
                    cases hf : env.fetch current with
                    | none => exact hrestU
                    | some p =>
                        intro u hu
                        rcases List.mem_append.mp hu with hu | hu
                        · exact hrestU u hu
                        · exact hlinks current p hf u (List.mem_of_mem_filter hu)
              · rw [processCurrent_visited]
                intro u hu
                rcases List.mem_append.mp hu with hu | hu
                · exact h.visitedU u hu
                · rcases List.mem_singleton.mp hu with rfl; exact hcurU
              · rw [processCurrent_queue]
                cases r with
                | false => simpa using hrestR
                | true =>
                    rw [if_pos rfl]
                    cases hf : env.fetch current with
                    | none => exact hrestR
                    | some p =>
                        intro u hu
                        rcases List.mem_append.mp hu with hu | hu
                        · exact hrestR u hu
                        · exact Reaches.link hcurR hsc rfl hf (List.mem_of_mem_filter hu)
              · rw [processCurrent_visited]
                intro u hu
                rcases List.mem_append.mp hu with hu | hu
                · exact h.visitedReach u hu
                · rcases List.mem_singleton.mp hu with rfl; exact ⟨hcurR, hsc⟩
              · exact fun u hu => promote u (h.seedsClosed u hu)
              · intro v hvv hr p hp l hl
                rw [processCurrent_visited] at hvv
                rcases List.mem_append.mp hvv with hvv | hvv
                · exact promote l (h.linksClosed v hvv hr p hp l hl)
                · rcases List.mem_singleton.mp hvv with rfl
                  subst hr
                  by_cases hlv : l ∈ s.visited ++ [v]
                  · exact Or.inl (by rw [processCurrent_visited]; exact hlv)
                  · refine Or.inr (Or.inl ?_)
                    rw [processCurrent_queue, if_pos rfl, hp]
                    refine List.mem_append.mpr (Or.inr ?_)
                    exact List.mem_filter.mpr ⟨hl, by simpa using hlv⟩
            · rw [if_neg hb]
              have promote : ∀ x, (x ∈ s.visited ∨ x ∈ s.queue ∨ inScope base x = false) →
                  (x ∈ s.visited ∨ x ∈ rest ∨ inScope base x = false) := by
                intro x hx
                rcases hx with hx | hx | hx
                · exact Or.inl hx
                · rw [hql] at hx
                  rcases List.mem_cons.mp hx with rfl | hx
                  · exact Or.inr (Or.inr (inScope_false_of_netloc hnl hb))
                  · exact Or.inr (Or.inl hx)
                · exact Or.inr (Or.inr hx)
              exact ⟨h.errNone, hrestU, h.visitedU, hrestR, h.visitedReach,
                fun u hu => promote u (h.seedsClosed u hu),
                fun v hvv hr p hp l hl => promote l (h.linksClosed v hvv hr p hp l hl)⟩

theorem visited_filter_append (U visited : List String) (current : String) :
    (U.toFinset.filter fun u => u ∉ visited ++ [current]) =
      (U.toFinset.filter fun u => u ∉ visited).erase current := by
  ext x
  simp only [Finset.mem_filter, Finset.mem_erase, List.mem_append, List.mem_singleton, not_or]
  tauto

theorem potential_decrease (env : Env) (r : Bool) (t : Option String) (base : String)
    (U : List String) (s : CrawlState) (current : String) (rest : List String)
    (hql : s.queue = current :: rest) (hcurU : current ∈ U) :
    potential env U (crawlStep env r t base s) < potential env U s := by
  rw [crawlStep_cons env r t base s current rest hql]
  by_cases hv : current ∈ s.visited ∨ (IGNORE_PATTERNS.any fun p => strContains current p) = true
  · rw [if_pos hv]
    unfold potential
    rw [hql]
    simp
  · rw [if_neg hv]
    have hvis : current ∉ s.visited := fun hc => hv (Or.inl hc)
    cases hnl : netloc? current with
    | none =>
        unfold potential
        rw [hql]
        simp
    | some nl =>
        dsimp only
        by_cases hb : nl = base
        · rw [if_pos hb]
          have hmem : current ∈ (U.toFinset.filter fun u => u ∉ s.visited) :=
            Finset.mem_filter.mpr ⟨List.mem_toFinset.mpr hcurU, hvis⟩
          have hsum : (U.toFinset.filter fun u => u ∉ s.visited ++ [current]).sum (linkWeight env)
              + linkWeight env current
              = (U.toFinset.filter fun u => u ∉ s.visited).sum (linkWeight env) := by
            rw [visited_filter_append]
            exact Finset.sum_erase_add _ _ hmem
          unfold potential
          rw [hql, processCurrent_queue, processCurrent_visited]
          cases r with
          | false =>
              simp only [Bool.false_eq_true, if_false, List.length_cons]
              have hw : 0 < linkWeight env current := by
                unfold linkWeight; omega
              omega
          | true =>
              rw [if_pos rfl]
              cases hf : env.fetch current with
              | none =>
                  simp only [List.length_cons]
                  have hw : 0 < linkWeight env current := by
                    unfold linkWeight; omega
                  omega
              | some p =>
                  have hw : linkWeight env current = 1 + p.links.length := by
                    unfold linkWeight; rw [hf]
                  have hlen : (rest ++ p.links.filter fun l =>
                      decide (l ∉ s.visited ++ [current])).length ≤
                      rest.length + p.links.length := by
                    rw [List.length_append]
                    have := List.length_filter_le
                      (fun l => decide (l ∉ s.visited ++ [current])) p.links
                    omega
                  simp only [List.length_cons]
                  omega
        · rw [if_neg hb]
          unfold potential
          rw [hql]
          simp

theorem crawlLoop_empties (env : Env) (r : Bool) (t : Option String) (base : String)
    (seeds U : List String)
    (hlinks : ∀ u p, env.fetch u = some p → ∀ l ∈ p.links, l ∈ U)
    (hparse : ∀ u ∈ U, netloc? u ≠ none) :
    ∀ n s, ReachInv env r base seeds U s → potential env U s ≤ n →
      (crawlLoop env r t base n s).queue = [] := by
  intro n
  induction n with
  | zero =>
      intro s h hpot
      unfold potential at hpot
      have : s.queue.length = 0 := by omega
      exact List.length_eq_zero.mp this
  | succ n ih =>
      intro s h hpot
      rw [crawlLoop]
      rw [h.errNone]
      simp only [Option.isSome_none, Bool.false_eq_true, if_false]
      cases hq : s.queue with
      | nil => exact hq
      | cons c rest =>
          apply ih
          · exact ReachInv_step hlinks hparse s (by rw [hq]; exact List.cons_ne_nil c rest) h
          · have hdec := potential_decrease env r t base U s c rest hq
              (h.queueU c (by rw [hq]; exact List.mem_cons_self _ _))
            omega

theorem reaches_mem_visited {env : Env} {r : Bool} {base : String}
    {seeds U : List String} {F : CrawlState}
    (hqnil : F.queue = []) (hR : ReachInv env r base seeds U F) :
    ∀ u, Reaches env r base seeds u → inScope base u = true → u ∈ F.visited := by
  intro u h
  induction h with
  | seed hu =>
      intro hs
      rcases hR.seedsClosed _ hu with hx | hx | hx
      · exact hx
      · rw [hqnil] at hx; cases hx
      · rw [hs] at hx; simp at hx
  | link hv hscope hr hfetch hlmem ih =>
      intro hs
      have hvvis := ih hscope
      rcases hR.linksClosed _ hvvis hr _ hfetch _ hlmem with hx | hx | hx
      · exact hx
      · rw [hqnil] at hx; cases hx
      · rw [hs] at hx; simp at hx

/-- C4: over any finite URL domain `U` of well-formed URLs that contains the
seeds and is closed under page links, the crawl terminates with an empty
frontier at some finite fuel, and the output document count equals the
number of unique in-scope reachable pages — the visited list enumerates,
without duplicates, exactly the reachable in-scope URLs, and the documents
are in bijection with those of them whose fetch succeeds. -/
theorem crawl_terminates_complete (env : Env) (r : Bool) (t : Option String)
    (u0 : String) (us : List String) (U : List String) (base : String)
    (hseeds : ∀ u ∈ u0 :: us, u ∈ U)
    (hlinks : ∀ u p, env.fetch u = some p → ∀ l ∈ p.links, l ∈ U)
    (hparse : ∀ u ∈ U, netloc? u ≠ none)
    (hbase : netloc? u0 = some base) :
    ∃ fuel final,
      crawlRun env (u0 :: us) r t fuel = Except.ok final ∧
      crawl_and_scrape env (u0 :: us) r t fuel = Except.ok final.documents ∧
      final.queue = [] ∧
      final.visited.Nodup ∧
      (∀ u, u ∈ final.visited ↔ Reaches env r base (u0 :: us) u ∧ inScope base u = true) ∧
      final.documents.length =
        (final.visited.filter fun u => (env.fetch u).isSome).length := by
  have hinit : ReachInv env r base (u0 :: us) U (initState (u0 :: us)) :=
    ReachInv_init env r base (u0 :: us) U hseeds
  have hF : ReachInv env r base (u0 :: us) U
      (crawlLoop env r t base (potential env U (initState (u0 :: us)))
        (initState (u0 :: us))) :=
    crawlLoop_preserve (ReachInv env r base (u0 :: us) U)
      (fun s _ hq h => ReachInv_step hlinks hparse s hq h)
      (potential env U (initState (u0 :: us))) (initState (u0 :: us)) hinit
  have hqnil : (crawlLoop env r t base (potential env U (initState (u0 :: us)))
      (initState (u0 :: us))).queue = [] :=
    crawlLoop_empties env r t base (u0 :: us) U hlinks hparse
      (potential env U (initState (u0 :: us))) (initState (u0 :: us)) hinit le_rfl
  have hMInv : Inv env base (crawlLoop env r t base
      (potential env U (initState (u0 :: us))) (initState (u0 :: us))) :=
    Inv_crawlLoop env r t base (u0 :: us) (potential env U (initState (u0 :: us)))
  have hrun : crawlRun env (u0 :: us) r t (potential env U (initState (u0 :: us))) =
      Except.ok (crawlLoop env r t base (potential env U (initState (u0 :: us)))
        (initState (u0 :: us))) := by
    simp only [crawlRun]
    rw [hbase]
    dsimp only
    rw [hF.errNone]
  refine ⟨potential env U (initState (u0 :: us)), _, hrun, ?_, hqnil,
    hMInv.nodupVisited, ?_, hMInv.docCount⟩
  · unfold crawl_and_scrape
    rw [hrun]
    rfl
  · intro u
    constructor
    · exact hF.visitedReach u
    · rintro ⟨hre, hsc⟩
      exact reaches_mem_visited hqnil hF u hre hsc

/-- Environment of the witness run for C4: one seed whose page links to one
further in-scope page. -/
def envGraph : Env :=
  { fetch := fun u =>
      if u = "http://h/" then some ⟨"t", ["http://h/a"]⟩
      else if u = "http://h/a" then some ⟨"u", []⟩
      else none
    sitemap := fun _ => .fetchError
    translateInit := false
    translateCall := fun _ _ => none
    pdfDocs := [] }

theorem crawl_terminates_complete_witness :
    ∃ fuel final,
      crawlRun envGraph ["http://h/"] true none fuel = Except.ok final ∧
      crawl_and_scrape envGraph ["http://h/"] true none fuel = Except.ok final.documents ∧
      final.queue = [] ∧
      final.visited.Nodup ∧
      (∀ u, u ∈ final.visited ↔
        Reaches envGraph true "h" ["http://h/"] u ∧ inScope "h" u = true) ∧
      final.documents.length =
        (final.visited.filter fun u => (envGraph.fetch u).isSome).length :=
  crawl_terminates_complete envGraph true none "http://h/" []
    ["http://h/", "http://h/a"] "h"
    (by intro u hu; simp at hu; simp [hu])
    (by
      intro u p hp l hl
      simp only [envGraph] at hp
      by_cases h1 : u = "http://h/"
      · rw [if_pos h1] at hp
        cases hp
        simp at hl
        simp [hl]
      · rw [if_neg h1] at hp
        by_cases h2 : u = "http://h/a"
        · rw [if_pos h2] at hp
          cases hp
          simp at hl
        · rw [if_neg h2] at hp
          cases hp)
    (by intro u hu; simp at hu; rcases hu with rfl | rfl <;> decide)
    rfl

end Crawler
